import Mathlib

/-!
Verification of the timelapse-colorizer data-conversion pipeline
(`scripts/timelapse-colorizer-data/`), as a shallow embedding in Lean.

Images are 2-D arrays of non-negative integer labels, modelled as
`List (List Nat)` (row-major, as in numpy).  Tabular object records are
lists of `ObjRecord`.  The fixed-width `np.ushort` bounding-box table is
modelled by storing every written value modulo `2 ^ 16`, exactly as the
numpy cast does.
-/

/-- `RESERVED_INDICES` from `data_writer_utils.py`: index 0 is reserved
for the background. -/
def RESERVED_INDICES : Nat := 1

/-- One row of the per-frame object table: the frame-local object label
(`object_id_column`) and the dataset-wide row index
(`INITIAL_INDEX_COLUMN`). -/
structure ObjRecord where
  local_label : Nat
  initialIndex : Nat
deriving DecidableEq, Repr

/-- `np.nanmax(seg2d)` for a non-negative integer image (no NaNs can occur
in an integer array): the maximum pixel value, 0 for an empty image. -/
def imageMax (img : List (List Nat)) : Nat :=
  (img.map (fun row => row.foldl max 0)).foldl max 0

/-- `np.nanmax(frame[object_id_column])`: the largest local label in the
frame's table, 0 for an empty table. -/
def frameMax (frame : List ObjRecord) : Nat :=
  (frame.map (fun r => r.local_label)).foldl max 0

/-- The LUT construction loop of `remap_segmented_image`: start from
`np.zeros(size)` and perform `lut[object_id] = rowind + RESERVED_INDICES`
for every row, in table order. -/
def buildLut (size : Nat) (frame : List ObjRecord) : List Nat :=
  frame.foldl (fun lut r => lut.set r.local_label (r.initialIndex + RESERVED_INDICES))
    (List.replicate size 0)

/-- The value the finished LUT holds for label `l`: the last table row
with that local label wins (sequential assignment), otherwise the entry
keeps its zero initialisation. -/
def lutSpec (frame : List ObjRecord) (l : Nat) : Nat :=
  match (frame.filter (fun r => r.local_label == l)).getLast? with
  | some r => r.initialIndex + RESERVED_INDICES
  | none => 0

/-- `remap_segmented_image` from `data_writer_utils.py`:
computes `max_object_id`, builds the LUT, and remaps every pixel through
it (`seg_remapped = lut[seg2d]`).  Returns `(seg_remapped, lut)`.
Every pixel value is `≤ max_object_id < lut.length`, so the `getD`
indexing never falls back to its default. -/
def remap_segmented_image (seg2d : List (List Nat)) (frame : List ObjRecord) :
    List (List Nat) × List Nat :=
  let max_object_id := max (imageMax seg2d) (frameMax frame)
  let lut := buildLut (max_object_id + 1) frame
  (seg2d.map (fun row => row.map (fun p => lut.getD p 0)), lut)

/-! ### Basic list lemmas -/

theorem getD_set_self (l : List Nat) (i : Nat) (v : Nat) (h : i < l.length) :
    (l.set i v).getD i 0 = v := by
  induction l generalizing i with
  | nil => simp at h
  | cons a t ih =>
    cases i with
    | zero => simp [List.set, List.getD]
    | succ n =>
      simp only [List.set, List.getD_cons_succ]
      exact ih n (by simpa using h)

theorem getD_set_ne (l : List Nat) (i j : Nat) (v : Nat) (h : i ≠ j) :
    (l.set i v).getD j 0 = l.getD j 0 := by
  induction l generalizing i j with
  | nil => simp [List.set]
  | cons a t ih =>
    cases i with
    | zero =>
      cases j with
      | zero => exact absurd rfl h
      | succ m => simp [List.set, List.getD_cons_succ]
    | succ n =>
      cases j with
      | zero => simp [List.set]
      | succ m =>
        simp only [List.set, List.getD_cons_succ]
        exact ih n m (by omega)

theorem getD_replicate_zero (n l : Nat) : (List.replicate n 0).getD l 0 = 0 := by
  induction n generalizing l with
  | zero => simp [List.getD]
  | succ k ih =>
    cases l with
    | zero => simp [List.replicate]
    | succ m => simp [List.replicate, ih m]

theorem init_le_foldl_max (l : List Nat) (a : Nat) : a ≤ l.foldl max a := by
  induction l generalizing a with
  | nil => simp
  | cons b t ih =>
    simp only [List.foldl_cons]
    exact le_trans (Nat.le_max_left a b) (ih (max a b))

theorem mem_le_foldl_max {l : List Nat} {x : Nat} (hx : x ∈ l) (a : Nat) :
    x ≤ l.foldl max a := by
  induction l generalizing a with
  | nil => simp at hx
  | cons b t ih =>
    simp only [List.foldl_cons]
    rcases List.mem_cons.mp hx with h | h
    · subst h
      exact le_trans (Nat.le_max_right a x) (init_le_foldl_max t (max a x))
    · exact ih h (max a b)

theorem getLast?_cons {α : Type} (r : α) (xs : List α) :
    (r :: xs).getLast? = some (match xs.getLast? with | none => r | some x => x) := by
  induction xs generalizing r with
  | nil => rfl
  | cons y ys ih =>
    rw [List.getLast?_cons_cons, ih y]

/-! ### LUT characterization -/

theorem buildLut_aux_length (frame : List ObjRecord) (acc : List Nat) :
    (frame.foldl (fun lut r => lut.set r.local_label (r.initialIndex + RESERVED_INDICES)) acc).length
      = acc.length := by
  induction frame generalizing acc with
  | nil => rfl
  | cons r rs ih => simp [List.foldl_cons, ih, List.length_set]

theorem buildLut_length (size : Nat) (frame : List ObjRecord) :
    (buildLut size frame).length = size := by
  unfold buildLut
  rw [buildLut_aux_length]
  exact List.length_replicate size 0

theorem buildLut_aux_getD (frame : List ObjRecord) (acc : List Nat) (l : Nat)
    (hlen : ∀ r ∈ frame, r.local_label < acc.length) :
    (frame.foldl (fun lut r => lut.set r.local_label (r.initialIndex + RESERVED_INDICES)) acc).getD l 0
      = match (frame.filter (fun r => r.local_label == l)).getLast? with
        | some r => r.initialIndex + RESERVED_INDICES
        | none => acc.getD l 0 := by
  induction frame generalizing acc with
  | nil => rfl
  | cons r rs ih =>
    simp only [List.foldl_cons, List.filter_cons]
    have hlen' : ∀ x ∈ rs, x.local_label < (acc.set r.local_label (r.initialIndex + RESERVED_INDICES)).length := by
      intro x hx
      rw [List.length_set]
      exact hlen x (List.mem_cons_of_mem r hx)
    by_cases hl : r.local_label = l
    · have hbeq : (r.local_label == l) = true := by simp [hl]
      rw [hbeq, if_pos rfl, ih _ hlen', getLast?_cons]
      cases hrs : (rs.filter (fun x => x.local_label == l)).getLast? with
      | some x => simp
      | none =>
        simp only
        have hlt : l < acc.length := by
          rw [← hl]; exact hlen r (List.mem_cons_self r rs)
        rw [hl, getD_set_self acc l _ hlt]
    · have hbeq : (r.local_label == l) = false := by simp [hl]
      rw [hbeq, if_neg (by simp), ih _ hlen', getD_set_ne acc r.local_label l _ hl]

theorem buildLut_getD (size : Nat) (frame : List ObjRecord) (l : Nat)
    (hlab : ∀ r ∈ frame, r.local_label < size) :
    (buildLut size frame).getD l 0 = lutSpec frame l := by
  unfold buildLut lutSpec
  rw [buildLut_aux_getD frame _ l (by simpa using hlab)]
  cases h : (frame.filter (fun r => r.local_label == l)).getLast? with
  | some r => rfl
  | none => simp [getD_replicate_zero]

theorem lutSpec_mem {frame : List ObjRecord} {l : Nat} (h : lutSpec frame l ≠ 0) :
    ∃ r ∈ frame, r.local_label = l ∧ lutSpec frame l = r.initialIndex + RESERVED_INDICES := by
  unfold lutSpec at *
  cases hlast : (frame.filter (fun r => r.local_label == l)).getLast? with
  | none => rw [hlast] at h; exact absurd rfl h
  | some r =>
    have hr : r ∈ frame.filter (fun r => r.local_label == l) :=
      List.mem_of_getLast?_eq_some hlast
    rcases List.mem_filter.mp hr with ⟨hmem, hlab⟩
    exact ⟨r, hmem, by simpa using hlab, rfl⟩

theorem lutSpec_zero_of_not_mem {frame : List ObjRecord} {l : Nat}
    (h : ∀ r ∈ frame, r.local_label ≠ l) : lutSpec frame l = 0 := by
  unfold lutSpec
  have : frame.filter (fun r => r.local_label == l) = [] := by
    apply List.filter_eq_nil_iff.mpr
    intro r hr
    simp [h r hr]
  simp [this]

/-! ### Pixel access and remap lemmas -/

/-- Pixel value of a row-major image at (row `i`, column `j`); 0 outside
the image (only used together with explicit bounds). -/
def pixelD (img : List (List Nat)) (i j : Nat) : Nat :=
  ((img.getD i []).getD j 0)

theorem getD_map_of_lt {α β : Type} (f : α → β) (l : List α) (i : Nat) (d : α) (db : β)
    (h : i < l.length) :
    (l.map f).getD i db = f (l.getD i d) := by
  induction l generalizing i with
  | nil => simp at h
  | cons a t ih =>
    cases i with
    | zero => simp [List.getD]
    | succ n =>
      simp only [List.map_cons, List.getD_cons_succ]
      exact ih n (by simpa using h)

theorem remap_pixel (seg2d : List (List Nat)) (frame : List ObjRecord) (i j : Nat)
    (hi : i < seg2d.length) (hj : j < (seg2d.getD i []).length) :
    pixelD (remap_segmented_image seg2d frame).1 i j
      = ((remap_segmented_image seg2d frame).2).getD (pixelD seg2d i j) 0 := by
  unfold remap_segmented_image pixelD
  simp only
  set lut := buildLut (max (imageMax seg2d) (frameMax frame) + 1) frame with hlut
  rw [getD_map_of_lt (fun row => row.map (fun p => lut.getD p 0)) seg2d i [] [] hi]
  rw [getD_map_of_lt (fun p => lut.getD p 0) (seg2d.getD i []) j 0 0 hj]

theorem remap_length (seg2d : List (List Nat)) (frame : List ObjRecord) :
    (remap_segmented_image seg2d frame).1.length = seg2d.length := by
  unfold remap_segmented_image
  simp

theorem remap_row_length (seg2d : List (List Nat)) (frame : List ObjRecord) (i : Nat) :
    ((remap_segmented_image seg2d frame).1.getD i []).length = (seg2d.getD i []).length := by
  unfold remap_segmented_image
  simp only
  by_cases h : i < seg2d.length
  · rw [getD_map_of_lt (fun row => row.map (fun p =>
      (buildLut (max (imageMax seg2d) (frameMax frame) + 1) frame).getD p 0)) seg2d i [] [] h]
    simp
  · have h' : seg2d.length ≤ i := Nat.le_of_not_lt h
    rw [List.getD_eq_getElem?_getD, List.getD_eq_getElem?_getD,
      List.getElem?_eq_none (by simpa using h'), List.getElem?_eq_none h']

theorem pixel_le_imageMax (img : List (List Nat)) (i j : Nat)
    (hi : i < img.length) (hj : j < (img.getD i []).length) :
    pixelD img i j ≤ imageMax img := by
  unfold pixelD imageMax
  have hrow : img.getD i [] ∈ img := by
    rw [List.getD_eq_getElem?_getD, List.getElem?_eq_getElem hi, Option.getD_some]
    exact List.getElem_mem hi
  have hpx : (img.getD i []).getD j 0 ∈ img.getD i [] := by
    rw [List.getD_eq_getElem?_getD (img.getD i []), List.getElem?_eq_getElem hj, Option.getD_some]
    exact List.getElem_mem hj
  have h1 : (img.getD i []).getD j 0 ≤ (img.getD i []).foldl max 0 :=
    mem_le_foldl_max hpx 0
  have h2 : (img.getD i []).foldl max 0 ∈ img.map (fun row => row.foldl max 0) :=
    List.mem_map_of_mem _ hrow
  exact le_trans h1 (mem_le_foldl_max h2 0)

theorem label_le_frameMax {frame : List ObjRecord} {r : ObjRecord} (h : r ∈ frame) :
    r.local_label ≤ frameMax frame := by
  unfold frameMax
  exact mem_le_foldl_max (List.mem_map_of_mem _ h) 0

/-- The LUT returned by `remap_segmented_image` is `lutSpec` everywhere. -/
theorem remap_lut_getD (seg2d : List (List Nat)) (frame : List ObjRecord) (l : Nat) :
    ((remap_segmented_image seg2d frame).2).getD l 0 = lutSpec frame l := by
  unfold remap_segmented_image
  simp only
  apply buildLut_getD
  intro r hr
  have := label_le_frameMax hr
  have h2 : frameMax frame ≤ max (imageMax seg2d) (frameMax frame) := Nat.le_max_right _ _
  omega

theorem pixelD_oob {img : List (List Nat)} {i j : Nat}
    (h : i ≥ img.length ∨ j ≥ (img.getD i []).length) : pixelD img i j = 0 := by
  unfold pixelD
  rcases h with h | h
  · rw [List.getD_eq_getElem?_getD img, List.getElem?_eq_none h]
    simp [List.getD]
  · rw [List.getD_eq_getElem?_getD (img.getD i []), List.getElem?_eq_none h]
    rfl

theorem lutSpec_zero_of_pos {frame : List ObjRecord}
    (hpos : ∀ r ∈ frame, 0 < r.local_label) : lutSpec frame 0 = 0 :=
  lutSpec_zero_of_not_mem (fun r hr => Nat.pos_iff_ne_zero.mp (hpos r hr))

/-- C1: for every frame image and record subset with positive local labels,
`remap_segmented_image` builds a zero-filled LUT of size
`max(image max, table label max) + 1`, assigns
`LUT[local_label] = global_row_index + RESERVED_INDICES` record by record
(the last assignment to a label is the one the finished LUT holds), and
returns the image with every pixel passed through the LUT; background
pixels (label 0) and labels absent from the table therefore map to global
ID 0. -/
theorem C1_remap_builds_lut_and_applies_it
    (seg2d : List (List Nat)) (frame : List ObjRecord)
    (hpos : ∀ r ∈ frame, 0 < r.local_label) :
    ((remap_segmented_image seg2d frame).2).length
        = max (imageMax seg2d) (frameMax frame) + 1
    ∧ (∀ r ∈ frame,
        (frame.filter (fun x => x.local_label == r.local_label)).getLast? = some r →
        ((remap_segmented_image seg2d frame).2).getD r.local_label 0
          = r.initialIndex + RESERVED_INDICES)
    ∧ (∀ l, (∀ r ∈ frame, r.local_label ≠ l) →
        ((remap_segmented_image seg2d frame).2).getD l 0 = 0)
    ∧ (remap_segmented_image seg2d frame).1.length = seg2d.length
    ∧ (∀ i, ((remap_segmented_image seg2d frame).1.getD i []).length
        = (seg2d.getD i []).length)
    ∧ (∀ i j, pixelD (remap_segmented_image seg2d frame).1 i j
        = ((remap_segmented_image seg2d frame).2).getD (pixelD seg2d i j) 0)
    ∧ (∀ i j, pixelD seg2d i j = 0 →
        pixelD (remap_segmented_image seg2d frame).1 i j = 0)
    ∧ (∀ i j, (∀ r ∈ frame, r.local_label ≠ pixelD seg2d i j) →
        pixelD (remap_segmented_image seg2d frame).1 i j = 0) := by
  have hlut : ∀ l, ((remap_segmented_image seg2d frame).2).getD l 0 = lutSpec frame l :=
    fun l => remap_lut_getD seg2d frame l
  have hpix : ∀ i j, pixelD (remap_segmented_image seg2d frame).1 i j
      = ((remap_segmented_image seg2d frame).2).getD (pixelD seg2d i j) 0 := by
    intro i j
    by_cases hi : i < seg2d.length
    · by_cases hj : j < (seg2d.getD i []).length
      · exact remap_pixel seg2d frame i j hi hj
      · rw [pixelD_oob (Or.inr (Nat.le_of_not_lt hj)),
          pixelD_oob (i := i) (j := j) (Or.inr ?_), hlut, lutSpec_zero_of_pos hpos]
        rw [remap_row_length]
        exact Nat.le_of_not_lt hj
    · rw [pixelD_oob (Or.inl (Nat.le_of_not_lt hi)),
        pixelD_oob (i := i) (j := j) (Or.inl ?_), hlut, lutSpec_zero_of_pos hpos]
      rw [remap_length]
      exact Nat.le_of_not_lt hi
  refine ⟨?_, ?_, ?_, remap_length seg2d frame, remap_row_length seg2d frame, hpix, ?_, ?_⟩
  · unfold remap_segmented_image
    simp only
    exact buildLut_length _ frame
  · intro r hr hlast
    rw [hlut]
    unfold lutSpec
    rw [hlast]
  · intro l hl
    rw [hlut]
    exact lutSpec_zero_of_not_mem hl
  · intro i j h0
    rw [hpix i j, h0, hlut, lutSpec_zero_of_pos hpos]
  · intro i j habs
    rw [hpix i j, hlut, lutSpec_zero_of_not_mem habs]

/-- Witness for C1 at a concrete frame: image `[[1, 3, 0]]`, table
`[(label 1 ↦ row 0), (label 3 ↦ row 1)]`. -/
theorem C1_witness :
    (∀ r ∈ [ObjRecord.mk 1 0, ObjRecord.mk 3 1], 0 < r.local_label)
    ∧ (((remap_segmented_image [[1, 3, 0]] [ObjRecord.mk 1 0, ObjRecord.mk 3 1]).2).length
        = max (imageMax [[1, 3, 0]]) (frameMax [ObjRecord.mk 1 0, ObjRecord.mk 3 1]) + 1
    ∧ (∀ r ∈ [ObjRecord.mk 1 0, ObjRecord.mk 3 1],
        ([ObjRecord.mk 1 0, ObjRecord.mk 3 1].filter
          (fun x => x.local_label == r.local_label)).getLast? = some r →
        ((remap_segmented_image [[1, 3, 0]] [ObjRecord.mk 1 0, ObjRecord.mk 3 1]).2).getD
            r.local_label 0 = r.initialIndex + RESERVED_INDICES)
    ∧ (∀ l, (∀ r ∈ [ObjRecord.mk 1 0, ObjRecord.mk 3 1], r.local_label ≠ l) →
        ((remap_segmented_image [[1, 3, 0]] [ObjRecord.mk 1 0, ObjRecord.mk 3 1]).2).getD l 0 = 0)
    ∧ (remap_segmented_image [[1, 3, 0]] [ObjRecord.mk 1 0, ObjRecord.mk 3 1]).1.length
        = [[1, 3, 0]].length
    ∧ (∀ i, ((remap_segmented_image [[1, 3, 0]] [ObjRecord.mk 1 0, ObjRecord.mk 3 1]).1.getD
        i []).length = ([[1, 3, 0]].getD i []).length)
    ∧ (∀ i j, pixelD (remap_segmented_image [[1, 3, 0]] [ObjRecord.mk 1 0, ObjRecord.mk 3 1]).1 i j
        = ((remap_segmented_image [[1, 3, 0]] [ObjRecord.mk 1 0, ObjRecord.mk 3 1]).2).getD
            (pixelD [[1, 3, 0]] i j) 0)
    ∧ (∀ i j, pixelD [[1, 3, 0]] i j = 0 →
        pixelD (remap_segmented_image [[1, 3, 0]] [ObjRecord.mk 1 0, ObjRecord.mk 3 1]).1 i j = 0)
    ∧ (∀ i j, (∀ r ∈ [ObjRecord.mk 1 0, ObjRecord.mk 3 1], r.local_label ≠ pixelD [[1, 3, 0]] i j) →
        pixelD (remap_segmented_image [[1, 3, 0]] [ObjRecord.mk 1 0, ObjRecord.mk 3 1]).1 i j = 0)) :=
  ⟨by decide, C1_remap_builds_lut_and_applies_it [[1, 3, 0]]
    [ObjRecord.mk 1 0, ObjRecord.mk 3 1] (by decide)⟩

/-! ### `np.argwhere` and the bounding-box accumulator -/

/-- Matches of value `v` in one image row: `rowHits v r c0 row` lists the
`(row, column)` coordinates (starting at column `c0`) of the pixels equal
to `v`, left to right. -/
def rowHits (v r : Nat) : Nat → List Nat → List (Nat × Nat)
  | _, [] => []
  | c, p :: ps => (if p = v then [(r, c)] else []) ++ rowHits v r (c + 1) ps

/-- Matches of value `v` in the rows of an image starting at row `r`. -/
def imgHits (v : Nat) : Nat → List (List Nat) → List (Nat × Nat)
  | _, [] => []
  | r, row :: rest => rowHits v r 0 row ++ imgHits v (r + 1) rest

/-- `np.argwhere(seg_remapped == v)`: all `(row, column)` coordinates of
pixels equal to `v`, in row-major order. -/
def argwhere (img : List (List Nat)) (v : Nat) : List (Nat × Nat) :=
  imgHits v 0 img

/-- `cell.min(0)` on one coordinate axis: minimum of a list, with an
arbitrary value on the empty list (never used there). -/
def listMinN (l : List Nat) : Nat :=
  match l with
  | [] => 0
  | h :: t => t.foldl min h

/-- `cell.max(0)` on one coordinate axis. -/
def listMaxN (l : List Nat) : Nat :=
  match l with
  | [] => 0
  | h :: t => t.foldl max h

/-- The two slice assignments
`bbox_data[wi:wi+2] = bbox_min; bbox_data[wi+2:wi+4] = bbox_max` with
`wi = id * 4`, reversed into `(min_x, min_y, max_x, max_y)` order.  The
table has dtype `np.ushort`, so every stored value is cast modulo
`2 ^ 16`. -/
def writeBBox (b : List Nat) (id minx miny maxx maxy : Nat) : List Nat :=
  ((((b.set (4 * id) (minx % 65536)).set (4 * id + 1) (miny % 65536)).set
      (4 * id + 2) (maxx % 65536)).set (4 * id + 3) (maxy % 65536))

/-- One iteration of the bounding-box loop of `update_and_write_bbox_data`
for loop index `i`: find all pixels equal to `lut[i]`; if any exist,
write that value's 4 slots from the coordinate minima/maxima (in x, y
order). -/
def processIndex (seg : List (List Nat)) (lut : List Nat) (b : List Nat) (i : Nat) :
    List Nat :=
  if argwhere seg (lut.getD i 0) = [] then b
  else
    writeBBox b (lut.getD i 0)
      (listMinN ((argwhere seg (lut.getD i 0)).map Prod.snd))
      (listMinN ((argwhere seg (lut.getD i 0)).map Prod.fst))
      (listMaxN ((argwhere seg (lut.getD i 0)).map Prod.snd))
      (listMaxN ((argwhere seg (lut.getD i 0)).map Prod.fst))

/-- The loop `for i in range(1, lut.size)` of `update_and_write_bbox_data`. -/
def bboxLoop (seg : List (List Nat)) (lut : List Nat) (b : List Nat) : List Nat :=
  (List.range' 1 (lut.length - 1)).foldl (processIndex seg lut) b

/-- `grouped_frames[INITIAL_INDEX_COLUMN].max().max()`: the largest
initial index over all frame groups. -/
def groupedMax (grouped : List (List ObjRecord)) : Nat :=
  (grouped.map (fun f => (f.map (fun r => r.initialIndex)).foldl max 0)).foldl max 0

/-- `totalIndices` of `update_and_write_bbox_data`: highest initial index
plus 1, plus the reserved index. -/
def totalIndices (grouped : List (List ObjRecord)) : Nat :=
  groupedMax grouped + 1 + RESERVED_INDICES

/-- `update_and_write_bbox_data` from `data_writer_utils.py`: allocate a
zeroed `np.ushort` table of `totalIndices * 2 * 2` entries if none exists
yet, then run the bounding-box capture loop.  (The subsequent JSON dump
serialises the returned table unchanged.) -/
def initialBBoxData (bboxOpt : Option (List Nat)) (grouped : List (List ObjRecord)) :
    List Nat :=
  match bboxOpt with
  | none => List.replicate (totalIndices grouped * 2 * 2) 0
  | some b0 => b0

def update_and_write_bbox_data (bboxOpt : Option (List Nat))
    (grouped : List (List ObjRecord)) (seg : List (List Nat)) (lut : List Nat) :
    List Nat :=
  bboxLoop seg lut (initialBBoxData bboxOpt grouped)

/-- C3 (code bug): the loop of `update_and_write_bbox_data` skips loop
index `i = 0` but not LUT *value* 0.  With the single record
`(local_label 2, initial index 0)` and image `[[2, 0], [0, 0]]`, the LUT
is `[0, 0, 1]`; at loop index 1 the entry `lut[1] = 0` makes the loop
collect all background pixels and write their bounding box `(0, 0, 1, 1)`
into the reserved slot 0, so slot 0 does not remain `(0, 0, 0, 0)`. -/
theorem C3_reserved_slot_overwritten_eval :
    update_and_write_bbox_data none [[ObjRecord.mk 2 0]]
      (remap_segmented_image [[2, 0], [0, 0]] [ObjRecord.mk 2 0]).1
      (remap_segmented_image [[2, 0], [0, 0]] [ObjRecord.mk 2 0]).2
      = [0, 0, 1, 1, 0, 0, 0, 0] := by decide

/-! ### argwhere characterization -/

theorem mem_rowHits (v r : Nat) (row : List Nat) (c0 : Nat) (p : Nat × Nat) :
    p ∈ rowHits v r c0 row
      ↔ p.1 = r ∧ ∃ j, j < row.length ∧ row.getD j 0 = v ∧ p.2 = c0 + j := by
  induction row generalizing c0 with
  | nil => simp [rowHits]
  | cons p0 ps ih =>
    simp only [rowHits, List.mem_append]
    constructor
    · intro h
      rcases h with h | h
      · by_cases hp0 : p0 = v
        · rw [if_pos hp0] at h
          simp only [List.mem_singleton] at h
          subst h
          exact ⟨rfl, 0, by simp [hp0]⟩
        · simp [hp0] at h
      · rcases (ih (c0 + 1)).mp h with ⟨h1, j, hj, hv, hc⟩
        exact ⟨h1, j + 1, by simpa using hj, by simpa using hv, by omega⟩
    · rintro ⟨h1, j, hj, hv, hc⟩
      cases j with
      | zero =>
        left
        simp only [List.getD_cons_zero] at hv
        have : p = (r, c0) := by
          rcases p with ⟨pa, pb⟩
          simp only at h1 hc
          simp [h1, hc]
        simp [hv, this]
      | succ m =>
        right
        refine (ih (c0 + 1)).mpr ⟨h1, m, by simpa using hj, by simpa using hv, by omega⟩

theorem mem_imgHits (v : Nat) (img : List (List Nat)) (r0 : Nat) (p : Nat × Nat) :
    p ∈ imgHits v r0 img
      ↔ ∃ i, i < img.length ∧ p.1 = r0 + i
          ∧ p.2 < (img.getD i []).length ∧ (img.getD i []).getD p.2 0 = v := by
  induction img generalizing r0 with
  | nil => simp [imgHits]
  | cons row rest ih =>
    simp only [imgHits, List.mem_append]
    constructor
    · intro h
      rcases h with h | h
      · rcases (mem_rowHits v r0 row 0 p).mp h with ⟨h1, j, hj, hv, hc⟩
        exact ⟨0, by simp, by omega, by simpa [hc] using hj, by simpa [hc] using hv⟩
      · rcases (ih (r0 + 1)).mp h with ⟨i, hi, h1, hj, hv⟩
        exact ⟨i + 1, by simpa using hi, by omega, by simpa using hj, by simpa using hv⟩
    · rintro ⟨i, hi, h1, hj, hv⟩
      cases i with
      | zero =>
        left
        refine (mem_rowHits v r0 row 0 p).mpr ⟨by omega, p.2, by simpa using hj,
          by simpa using hv, by omega⟩
      | succ m =>
        right
        refine (ih (r0 + 1)).mpr ⟨m, by simpa using hi, by omega,
          by simpa using hj, by simpa using hv⟩

theorem mem_argwhere (img : List (List Nat)) (v : Nat) (p : Nat × Nat) :
    p ∈ argwhere img v
      ↔ p.1 < img.length ∧ p.2 < (img.getD p.1 []).length ∧ pixelD img p.1 p.2 = v := by
  unfold argwhere pixelD
  rw [mem_imgHits]
  constructor
  · rintro ⟨i, hi, h1, hj, hv⟩
    have : i = p.1 := by omega
    subst this
    exact ⟨hi, hj, hv⟩
  · rintro ⟨hi, hj, hv⟩
    exact ⟨p.1, hi, by omega, hj, hv⟩

/-! ### fold min/max lemmas -/

theorem foldl_min_mem {α : Type} [LinearOrder α] (t : List α) (a : α) :
    t.foldl min a ∈ a :: t := by
  induction t generalizing a with
  | nil => simp
  | cons b s ih =>
    simp only [List.foldl_cons]
    rcases List.mem_cons.mp (ih (min a b)) with h | h
    · rcases min_choice a b with hc | hc
      · exact List.mem_cons.mpr (Or.inl (h.trans hc))
      · exact List.mem_cons.mpr (Or.inr (List.mem_cons.mpr (Or.inl (h.trans hc))))
    · exact List.mem_cons.mpr (Or.inr (List.mem_cons.mpr (Or.inr h)))

theorem foldl_min_le {α : Type} [LinearOrder α] (t : List α) (a : α) :
    ∀ x ∈ a :: t, t.foldl min a ≤ x := by
  induction t generalizing a with
  | nil =>
    intro x hx
    rw [List.mem_singleton] at hx
    subst hx
    simp
  | cons b s ih =>
    intro x hx
    simp only [List.foldl_cons]
    rcases List.mem_cons.mp hx with h | h
    · subst h
      exact le_trans (ih (min x b) (min x b) (List.mem_cons_self _ _)) (min_le_left x b)
    · rcases List.mem_cons.mp h with h | h
      · subst h
        exact le_trans (ih (min a x) (min a x) (List.mem_cons_self _ _)) (min_le_right a x)
      · exact ih (min a b) x (List.mem_cons_of_mem _ h)

theorem foldl_max_mem {α : Type} [LinearOrder α] (t : List α) (a : α) :
    t.foldl max a ∈ a :: t := by
  induction t generalizing a with
  | nil => simp
  | cons b s ih =>
    simp only [List.foldl_cons]
    rcases List.mem_cons.mp (ih (max a b)) with h | h
    · rcases max_choice a b with hc | hc
      · exact List.mem_cons.mpr (Or.inl (h.trans hc))
      · exact List.mem_cons.mpr (Or.inr (List.mem_cons.mpr (Or.inl (h.trans hc))))
    · exact List.mem_cons.mpr (Or.inr (List.mem_cons.mpr (Or.inr h)))

theorem foldl_le_max {α : Type} [LinearOrder α] (t : List α) (a : α) :
    ∀ x ∈ a :: t, x ≤ t.foldl max a := by
  induction t generalizing a with
  | nil =>
    intro x hx
    rw [List.mem_singleton] at hx
    subst hx
    simp
  | cons b s ih =>
    intro x hx
    simp only [List.foldl_cons]
    rcases List.mem_cons.mp hx with h | h
    · subst h
      exact le_trans (le_max_left x b) (ih (max x b) (max x b) (List.mem_cons_self _ _))
    · rcases List.mem_cons.mp h with h | h
      · subst h
        exact le_trans (le_max_right a x) (ih (max a x) (max a x) (List.mem_cons_self _ _))
      · exact ih (max a b) x (List.mem_cons_of_mem _ h)

theorem listMinN_mem {l : List Nat} (h : l ≠ []) : listMinN l ∈ l := by
  cases l with
  | nil => exact absurd rfl h
  | cons a t => exact foldl_min_mem t a

theorem listMinN_le {l : List Nat} (x : Nat) (hx : x ∈ l) : listMinN l ≤ x := by
  cases l with
  | nil => simp at hx
  | cons a t => exact foldl_min_le t a x hx

theorem listMaxN_mem {l : List Nat} (h : l ≠ []) : listMaxN l ∈ l := by
  cases l with
  | nil => exact absurd rfl h
  | cons a t => exact foldl_max_mem t a

theorem le_listMaxN {l : List Nat} (x : Nat) (hx : x ∈ l) : x ≤ listMaxN l := by
  cases l with
  | nil => simp at hx
  | cons a t => exact foldl_le_max t a x hx

/-! ### Bounding-box loop lemmas -/

theorem writeBBox_length (b : List Nat) (id mnx mny mxx mxy : Nat) :
    (writeBBox b id mnx mny mxx mxy).length = b.length := by
  unfold writeBBox
  simp [List.length_set]

theorem processIndex_length (seg : List (List Nat)) (lut : List Nat) (b : List Nat) (i : Nat) :
    (processIndex seg lut b i).length = b.length := by
  unfold processIndex
  by_cases h : argwhere seg (lut.getD i 0) = []
  · rw [if_pos h]
  · rw [if_neg h, writeBBox_length]

theorem foldl_processIndex_length (seg : List (List Nat)) (lut : List Nat)
    (is : List Nat) (b : List Nat) :
    (is.foldl (processIndex seg lut) b).length = b.length := by
  induction is generalizing b with
  | nil => rfl
  | cons i rest ih => rw [List.foldl_cons, ih, processIndex_length]

theorem getD_writeBBox_ne (b : List Nat) (id id' mnx mny mxx mxy m : Nat)
    (hid : id' ≠ id)
    (hm : m = 4 * id ∨ m = 4 * id + 1 ∨ m = 4 * id + 2 ∨ m = 4 * id + 3) :
    (writeBBox b id' mnx mny mxx mxy).getD m 0 = b.getD m 0 := by
  unfold writeBBox
  rw [getD_set_ne _ _ _ _ (by omega), getD_set_ne _ _ _ _ (by omega),
    getD_set_ne _ _ _ _ (by omega), getD_set_ne _ _ _ _ (by omega)]

theorem getD_writeBBox_eq (b : List Nat) (id mnx mny mxx mxy : Nat)
    (hlen : 4 * id + 3 < b.length) :
    (writeBBox b id mnx mny mxx mxy).getD (4 * id) 0 = mnx % 65536
    ∧ (writeBBox b id mnx mny mxx mxy).getD (4 * id + 1) 0 = mny % 65536
    ∧ (writeBBox b id mnx mny mxx mxy).getD (4 * id + 2) 0 = mxx % 65536
    ∧ (writeBBox b id mnx mny mxx mxy).getD (4 * id + 3) 0 = mxy % 65536 := by
  unfold writeBBox
  refine ⟨?_, ?_, ?_, ?_⟩
  · rw [getD_set_ne _ _ _ _ (by omega), getD_set_ne _ _ _ _ (by omega),
      getD_set_ne _ _ _ _ (by omega), getD_set_self _ _ _ (by omega)]
  · rw [getD_set_ne _ _ _ _ (by omega), getD_set_ne _ _ _ _ (by omega),
      getD_set_self _ _ _ (by simp [List.length_set]; omega)]
  · rw [getD_set_ne _ _ _ _ (by omega),
      getD_set_self _ _ _ (by simp [List.length_set]; omega)]
  · rw [getD_set_self _ _ _ (by simp [List.length_set]; omega)]

theorem foldl_process_untouched (seg : List (List Nat)) (lut : List Nat)
    (is : List Nat) (b : List Nat) (id : Nat)
    (h : ∀ i ∈ is, lut.getD i 0 ≠ id) (m : Nat)
    (hm : m = 4 * id ∨ m = 4 * id + 1 ∨ m = 4 * id + 2 ∨ m = 4 * id + 3) :
    (is.foldl (processIndex seg lut) b).getD m 0 = b.getD m 0 := by
  induction is generalizing b with
  | nil => rfl
  | cons i rest ih =>
    rw [List.foldl_cons, ih _ (fun x hx => h x (List.mem_cons_of_mem i hx))]
    unfold processIndex
    by_cases hcell : argwhere seg (lut.getD i 0) = []
    · rw [if_pos hcell]
    · rw [if_neg hcell]
      exact getD_writeBBox_ne b id (lut.getD i 0) _ _ _ _ m
        (h i (List.mem_cons_self i rest)) hm

theorem foldl_process_written (seg : List (List Nat)) (lut : List Nat)
    (is : List Nat) (b : List Nat) (id : Nat)
    (hmem : ∃ i ∈ is, lut.getD i 0 = id)
    (hcell : argwhere seg id ≠ [])
    (hlen : 4 * id + 3 < b.length) :
    (is.foldl (processIndex seg lut) b).getD (4 * id) 0
        = listMinN ((argwhere seg id).map Prod.snd) % 65536
    ∧ (is.foldl (processIndex seg lut) b).getD (4 * id + 1) 0
        = listMinN ((argwhere seg id).map Prod.fst) % 65536
    ∧ (is.foldl (processIndex seg lut) b).getD (4 * id + 2) 0
        = listMaxN ((argwhere seg id).map Prod.snd) % 65536
    ∧ (is.foldl (processIndex seg lut) b).getD (4 * id + 3) 0
        = listMaxN ((argwhere seg id).map Prod.fst) % 65536 := by
  induction is generalizing b with
  | nil => simp at hmem
  | cons i rest ih =>
    rw [List.foldl_cons]
    by_cases hi : lut.getD i 0 = id
    · have hstep : processIndex seg lut b i
          = writeBBox b id (listMinN ((argwhere seg id).map Prod.snd))
              (listMinN ((argwhere seg id).map Prod.fst))
              (listMaxN ((argwhere seg id).map Prod.snd))
              (listMaxN ((argwhere seg id).map Prod.fst)) := by
        unfold processIndex
        rw [hi, if_neg hcell]
      rw [hstep]
      by_cases hrest : ∃ x ∈ rest, lut.getD x 0 = id
      · exact ih _ hrest (by rw [writeBBox_length]; exact hlen)
      · have huntouched : ∀ x ∈ rest, lut.getD x 0 ≠ id := by
          intro x hx
          exact fun hc => hrest ⟨x, hx, hc⟩
        refine ⟨?_, ?_, ?_, ?_⟩
        · rw [foldl_process_untouched seg lut rest _ id huntouched (4 * id) (by omega)]
          exact (getD_writeBBox_eq b id _ _ _ _ hlen).1
        · rw [foldl_process_untouched seg lut rest _ id huntouched (4 * id + 1) (by omega)]
          exact (getD_writeBBox_eq b id _ _ _ _ hlen).2.1
        · rw [foldl_process_untouched seg lut rest _ id huntouched (4 * id + 2) (by omega)]
          exact (getD_writeBBox_eq b id _ _ _ _ hlen).2.2.1
        · rw [foldl_process_untouched seg lut rest _ id huntouched (4 * id + 3) (by omega)]
          exact (getD_writeBBox_eq b id _ _ _ _ hlen).2.2.2
    · have hmem' : ∃ x ∈ rest, lut.getD x 0 = id := by
        rcases hmem with ⟨x, hx, hxid⟩
        rcases List.mem_cons.mp hx with h | h
        · exact absurd (h ▸ hxid) hi
        · exact ⟨x, h, hxid⟩
      exact ih _ hmem' (by rw [processIndex_length]; exact hlen)

/-! ### C2: bounding-box containment -/

/-- `i < rows`, `j < cols`, and pixel `(i, j)` of `img` holds value `v`. -/
def hasPixel (img : List (List Nat)) (v i j : Nat) : Prop :=
  i < img.length ∧ j < (img.getD i []).length ∧ pixelD img i j = v

/-- One frame step of `make_frames`: remap the frame's image, then run
`update_and_write_bbox_data` on the remapped image and its LUT. -/
def make_frame_bbox (bboxOpt : Option (List Nat)) (grouped : List (List ObjRecord))
    (seg2d : List (List Nat)) (frame : List ObjRecord) : List Nat :=
  update_and_write_bbox_data bboxOpt grouped
    (remap_segmented_image seg2d frame).1 (remap_segmented_image seg2d frame).2

theorem getD_mem {α : Type} {l : List α} {i : Nat} (d : α) (h : i < l.length) :
    l.getD i d ∈ l := by
  rw [List.getD_eq_getElem?_getD, List.getElem?_eq_getElem h, Option.getD_some]
  exact List.getElem_mem h

theorem mem_join_initialIndex_le {grouped : List (List ObjRecord)} {r : ObjRecord}
    (h : r ∈ grouped.flatten) : r.initialIndex ≤ groupedMax grouped := by
  rcases List.mem_flatten.mp h with ⟨f, hf, hr⟩
  unfold groupedMax
  have h1 : r.initialIndex ≤ (f.map (fun r => r.initialIndex)).foldl max 0 :=
    mem_le_foldl_max (List.mem_map_of_mem _ hr) 0
  exact le_trans h1 (mem_le_foldl_max
    (List.mem_map_of_mem (fun f => (f.map (fun r => r.initialIndex)).foldl max 0) hf) 0)

/-- C2: for a nonzero global ID with at least one pixel in the remapped
frame image, whose frame records come from the grouped dataset and whose
image dimensions fit `np.ushort`, after the frame is processed every pixel
bearing the ID lies inside the rectangle stored at slots
`4*id .. 4*id+3` (in `(min_x, min_y, max_x, max_y)` order), and a pixel
touches each of the four boundary lines. -/
theorem C2_bbox_containment_and_tightness
    (grouped : List (List ObjRecord)) (frame : List ObjRecord)
    (seg2d : List (List Nat)) (bOpt : Option (List Nat)) (id : Nat)
    (hframe : ∀ r ∈ frame, r ∈ grouped.flatten)
    (hpos : ∀ r ∈ frame, 0 < r.local_label)
    (hb : (initialBBoxData bOpt grouped).length = totalIndices grouped * 2 * 2)
    (hid : id ≠ 0)
    (hpx : argwhere (remap_segmented_image seg2d frame).1 id ≠ [])
    (hwidth : seg2d.length ≤ 65536)
    (hheight : ∀ row ∈ seg2d, row.length ≤ 65536) :
    (∀ i j, hasPixel (remap_segmented_image seg2d frame).1 id i j →
        (make_frame_bbox bOpt grouped seg2d frame).getD (4 * id) 0 ≤ j
        ∧ j ≤ (make_frame_bbox bOpt grouped seg2d frame).getD (4 * id + 2) 0
        ∧ (make_frame_bbox bOpt grouped seg2d frame).getD (4 * id + 1) 0 ≤ i
        ∧ i ≤ (make_frame_bbox bOpt grouped seg2d frame).getD (4 * id + 3) 0)
    ∧ (∃ i j, hasPixel (remap_segmented_image seg2d frame).1 id i j
        ∧ j = (make_frame_bbox bOpt grouped seg2d frame).getD (4 * id) 0)
    ∧ (∃ i j, hasPixel (remap_segmented_image seg2d frame).1 id i j
        ∧ j = (make_frame_bbox bOpt grouped seg2d frame).getD (4 * id + 2) 0)
    ∧ (∃ i j, hasPixel (remap_segmented_image seg2d frame).1 id i j
        ∧ i = (make_frame_bbox bOpt grouped seg2d frame).getD (4 * id + 1) 0)
    ∧ (∃ i j, hasPixel (remap_segmented_image seg2d frame).1 id i j
        ∧ i = (make_frame_bbox bOpt grouped seg2d frame).getD (4 * id + 3) 0) := by
  set seg := (remap_segmented_image seg2d frame).1 with hseg
  set lut := (remap_segmented_image seg2d frame).2 with hlutdef
  set cell := argwhere seg id with hcelldef
  -- dimensions of the remapped image
  have hsegw : seg.length ≤ 65536 := by rw [hseg, remap_length]; exact hwidth
  have hrowlen : ∀ i, i < seg.length → (seg.getD i []).length ≤ 65536 := by
    intro i hi
    rw [hseg, remap_row_length]
    have hi2 : i < seg2d.length := by rw [hseg, remap_length] at hi; exact hi
    exact hheight _ (getD_mem [] hi2)
  -- members of the cell are in-bounds coordinates carrying value id
  have hcellmem : ∀ p ∈ cell, hasPixel seg id p.1 p.2 := by
    intro p hp
    exact (mem_argwhere seg id p).mp hp
  -- a pixel with value id exists
  obtain ⟨p, hp⟩ := List.exists_mem_of_ne_nil cell hpx
  obtain ⟨hp1, hp2, hpval⟩ := hcellmem p hp
  -- the id is a table-assigned id: id = r.initialIndex + 1 with r ∈ frame
  have hp1' : p.1 < seg2d.length := by rw [hseg, remap_length] at hp1; exact hp1
  have hp2' : p.2 < (seg2d.getD p.1 []).length := by
    rw [hseg, remap_row_length] at hp2; exact hp2
  have hpix_eq : pixelD seg p.1 p.2 = lutSpec frame (pixelD seg2d p.1 p.2) := by
    rw [hseg, remap_pixel seg2d frame p.1 p.2 hp1' hp2', remap_lut_getD]
  have hlutspec : lutSpec frame (pixelD seg2d p.1 p.2) = id := by
    rw [← hpix_eq, hpval]
  obtain ⟨r, hrmem, -, hrid⟩ := lutSpec_mem (l := pixelD seg2d p.1 p.2)
    (by rw [hlutspec]; exact hid)
  have hid_eq : id = r.initialIndex + RESERVED_INDICES := by rw [← hlutspec, hrid]
  have hid_le : id ≤ groupedMax grouped + 1 := by
    have := mem_join_initialIndex_le (hframe r hrmem)
    unfold RESERVED_INDICES at hid_eq
    omega
  -- the initial table is long enough
  have hblen : 4 * id + 3 < (initialBBoxData bOpt grouped).length := by
    have htot : totalIndices grouped * 2 * 2 = (groupedMax grouped + 2) * 4 := by
      unfold totalIndices RESERVED_INDICES
      ring
    rw [hb]
    omega
  -- the loop writes the slots of id
  have hloopmem : ∃ i ∈ List.range' 1 (lut.length - 1), lut.getD i 0 = id := by
    have hpget : lut.getD (pixelD seg2d p.1 p.2) 0 = id := by
      have := remap_pixel seg2d frame p.1 p.2 hp1' hp2'
      rw [← hseg, ← hlutdef] at this
      rw [← this, hpval]
    have hlt : pixelD seg2d p.1 p.2 < lut.length := by
      by_contra hge
      rw [List.getD_eq_getElem?_getD, List.getElem?_eq_none (by omega)] at hpget
      exact hid hpget.symm
    have hne0 : pixelD seg2d p.1 p.2 ≠ 0 := by
      intro h0
      rw [h0] at hpget
      rw [hlutdef, remap_lut_getD, lutSpec_zero_of_pos hpos] at hpget
      exact hid hpget.symm
    refine ⟨pixelD seg2d p.1 p.2, ?_, hpget⟩
    rw [List.mem_range']
    exact ⟨pixelD seg2d p.1 p.2 - 1, by omega, by omega⟩
  have hwrit := foldl_process_written seg lut (List.range' 1 (lut.length - 1))
    (initialBBoxData bOpt grouped) id hloopmem hpx hblen
  have hbbox_eq : make_frame_bbox bOpt grouped seg2d frame
      = (List.range' 1 (lut.length - 1)).foldl (processIndex seg lut)
          (initialBBoxData bOpt grouped) := by
    unfold make_frame_bbox update_and_write_bbox_data bboxLoop
    rw [← hseg, ← hlutdef]
  -- coordinate bounds make the ushort cast the identity
  have hcoord : ∀ p' ∈ cell, p'.1 < 65536 ∧ p'.2 < 65536 := by
    intro p' hp'
    obtain ⟨h1, h2, -⟩ := hcellmem p' hp'
    exact ⟨lt_of_lt_of_le h1 hsegw, lt_of_lt_of_le h2 (hrowlen p'.1 h1)⟩
  have hmnx : listMinN (cell.map Prod.snd) < 65536 := by
    obtain ⟨x, hx, hxeq⟩ := List.mem_map.mp (listMinN_mem (l := cell.map Prod.snd)
      (by simpa using hpx))
    rw [← hxeq]
    exact (hcoord x hx).2
  have hmny : listMinN (cell.map Prod.fst) < 65536 := by
    obtain ⟨x, hx, hxeq⟩ := List.mem_map.mp (listMinN_mem (l := cell.map Prod.fst)
      (by simpa using hpx))
    rw [← hxeq]
    exact (hcoord x hx).1
  have hmxx : listMaxN (cell.map Prod.snd) < 65536 := by
    obtain ⟨x, hx, hxeq⟩ := List.mem_map.mp (listMaxN_mem (l := cell.map Prod.snd)
      (by simpa using hpx))
    rw [← hxeq]
    exact (hcoord x hx).2
  have hmxy : listMaxN (cell.map Prod.fst) < 65536 := by
    obtain ⟨x, hx, hxeq⟩ := List.mem_map.mp (listMaxN_mem (l := cell.map Prod.fst)
      (by simpa using hpx))
    rw [← hxeq]
    exact (hcoord x hx).1
  obtain ⟨hs0, hs1, hs2, hs3⟩ := hwrit
  have hB0 : (make_frame_bbox bOpt grouped seg2d frame).getD (4 * id) 0
      = listMinN (cell.map Prod.snd) := by
    rw [hbbox_eq, hs0, Nat.mod_eq_of_lt hmnx]
  have hB1 : (make_frame_bbox bOpt grouped seg2d frame).getD (4 * id + 1) 0
      = listMinN (cell.map Prod.fst) := by
    rw [hbbox_eq, hs1, Nat.mod_eq_of_lt hmny]
  have hB2 : (make_frame_bbox bOpt grouped seg2d frame).getD (4 * id + 2) 0
      = listMaxN (cell.map Prod.snd) := by
    rw [hbbox_eq, hs2, Nat.mod_eq_of_lt hmxx]
  have hB3 : (make_frame_bbox bOpt grouped seg2d frame).getD (4 * id + 3) 0
      = listMaxN (cell.map Prod.fst) := by
    rw [hbbox_eq, hs3, Nat.mod_eq_of_lt hmxy]
  refine ⟨?_, ?_, ?_, ?_, ?_⟩
  · intro i j hij
    have hmem : (i, j) ∈ cell := (mem_argwhere seg id (i, j)).mpr hij
    refine ⟨?_, ?_, ?_, ?_⟩
    · rw [hB0]
      exact listMinN_le j (List.mem_map.mpr ⟨(i, j), hmem, rfl⟩)
    · rw [hB2]
      exact le_listMaxN j (List.mem_map.mpr ⟨(i, j), hmem, rfl⟩)
    · rw [hB1]
      exact listMinN_le i (List.mem_map.mpr ⟨(i, j), hmem, rfl⟩)
    · rw [hB3]
      exact le_listMaxN i (List.mem_map.mpr ⟨(i, j), hmem, rfl⟩)
  · obtain ⟨x, hx, hxeq⟩ := List.mem_map.mp (listMinN_mem (l := cell.map Prod.snd)
      (by simpa using hpx))
    exact ⟨x.1, x.2, hcellmem x hx, by rw [hB0, ← hxeq]⟩
  · obtain ⟨x, hx, hxeq⟩ := List.mem_map.mp (listMaxN_mem (l := cell.map Prod.snd)
      (by simpa using hpx))
    exact ⟨x.1, x.2, hcellmem x hx, by rw [hB2, ← hxeq]⟩
  · obtain ⟨x, hx, hxeq⟩ := List.mem_map.mp (listMinN_mem (l := cell.map Prod.fst)
      (by simpa using hpx))
    exact ⟨x.1, x.2, hcellmem x hx, by rw [hB1, ← hxeq]⟩
  · obtain ⟨x, hx, hxeq⟩ := List.mem_map.mp (listMaxN_mem (l := cell.map Prod.fst)
      (by simpa using hpx))
    exact ⟨x.1, x.2, hcellmem x hx, by rw [hB3, ← hxeq]⟩

/-- Witness for C2 at a concrete frame: one record `(label 1 ↦ row 0)`,
image `[[1, 1], [0, 1]]`, global ID 1. -/
theorem C2_witness :
    ((∀ r ∈ [ObjRecord.mk 1 0], r ∈ [[ObjRecord.mk 1 0]].flatten)
    ∧ (∀ r ∈ [ObjRecord.mk 1 0], 0 < r.local_label)
    ∧ (initialBBoxData none [[ObjRecord.mk 1 0]]).length
        = totalIndices [[ObjRecord.mk 1 0]] * 2 * 2
    ∧ (1 : Nat) ≠ 0
    ∧ argwhere (remap_segmented_image [[1, 1], [0, 1]] [ObjRecord.mk 1 0]).1 1 ≠ []
    ∧ [[1, 1], [0, 1]].length ≤ 65536
    ∧ (∀ row ∈ [[1, 1], [0, 1]], row.length ≤ 65536))
    ∧ ((∀ i j, hasPixel (remap_segmented_image [[1, 1], [0, 1]] [ObjRecord.mk 1 0]).1 1 i j →
        (make_frame_bbox none [[ObjRecord.mk 1 0]] [[1, 1], [0, 1]] [ObjRecord.mk 1 0]).getD (4 * 1) 0 ≤ j
        ∧ j ≤ (make_frame_bbox none [[ObjRecord.mk 1 0]] [[1, 1], [0, 1]] [ObjRecord.mk 1 0]).getD (4 * 1 + 2) 0
        ∧ (make_frame_bbox none [[ObjRecord.mk 1 0]] [[1, 1], [0, 1]] [ObjRecord.mk 1 0]).getD (4 * 1 + 1) 0 ≤ i
        ∧ i ≤ (make_frame_bbox none [[ObjRecord.mk 1 0]] [[1, 1], [0, 1]] [ObjRecord.mk 1 0]).getD (4 * 1 + 3) 0)
    ∧ (∃ i j, hasPixel (remap_segmented_image [[1, 1], [0, 1]] [ObjRecord.mk 1 0]).1 1 i j
        ∧ j = (make_frame_bbox none [[ObjRecord.mk 1 0]] [[1, 1], [0, 1]] [ObjRecord.mk 1 0]).getD (4 * 1) 0)
    ∧ (∃ i j, hasPixel (remap_segmented_image [[1, 1], [0, 1]] [ObjRecord.mk 1 0]).1 1 i j
        ∧ j = (make_frame_bbox none [[ObjRecord.mk 1 0]] [[1, 1], [0, 1]] [ObjRecord.mk 1 0]).getD (4 * 1 + 2) 0)
    ∧ (∃ i j, hasPixel (remap_segmented_image [[1, 1], [0, 1]] [ObjRecord.mk 1 0]).1 1 i j
        ∧ i = (make_frame_bbox none [[ObjRecord.mk 1 0]] [[1, 1], [0, 1]] [ObjRecord.mk 1 0]).getD (4 * 1 + 1) 0)
    ∧ (∃ i j, hasPixel (remap_segmented_image [[1, 1], [0, 1]] [ObjRecord.mk 1 0]).1 1 i j
        ∧ i = (make_frame_bbox none [[ObjRecord.mk 1 0]] [[1, 1], [0, 1]] [ObjRecord.mk 1 0]).getD (4 * 1 + 3) 0)) :=
  ⟨⟨by decide, by decide, by decide, by decide, by decide, by decide, by decide⟩,
    C2_bbox_containment_and_tightness [[ObjRecord.mk 1 0]] [ObjRecord.mk 1 0]
      [[1, 1], [0, 1]] none 1 (by decide) (by decide) (by decide) (by decide)
      (by decide) (by decide) (by decide)⟩

/-! ### C5: no overflow check on bounding-box coordinates -/

theorem rowHits_replicate_append (v r c0 n : Nat) (hv : v ≠ 0) :
    rowHits v r c0 (List.replicate n 0 ++ [v]) = [(r, c0 + n)] := by
  induction n generalizing c0 with
  | zero =>
    simp only [List.replicate, List.nil_append]
    unfold rowHits
    rw [if_pos rfl]
    unfold rowHits
    simp
  | succ m ih =>
    simp only [List.replicate, List.cons_append]
    unfold rowHits
    rw [if_neg (fun h => hv h.symm), ih (c0 + 1)]
    simp only [List.nil_append, List.cons.injEq, and_true]
    congr 1
    omega

/-- C5 (code bug): `update_and_write_bbox_data` has no range check.  On a
1 × 65537 image whose only ID-1 pixel sits at x-coordinate 65536 (one
past the largest `np.ushort` value), the coordinate is cast modulo
`2 ^ 16`: the operation completes without error and the table keeps the
wrapped value 0 in every slot of ID 1 — max_x is stored as 0, not 65536,
and nothing fails loudly. -/
theorem C5_coordinate_wraps_silently :
    argwhere [List.replicate 65536 0 ++ [1]] 1 = [(0, 65536)]
    ∧ update_and_write_bbox_data none [[ObjRecord.mk 1 0]]
        [List.replicate 65536 0 ++ [1]] [0, 1] = List.replicate 8 0 := by
  have harg : argwhere [List.replicate 65536 0 ++ [1]] 1 = [(0, 65536)] := by
    unfold argwhere imgHits
    rw [rowHits_replicate_append 1 0 0 65536 (by decide)]
    unfold imgHits
    simp
  refine ⟨harg, ?_⟩
  have h1 : List.range' 1 (([0, 1] : List Nat).length - 1) = [1] := by decide
  have h2 : initialBBoxData none [[ObjRecord.mk 1 0]] = List.replicate 8 0 := by decide
  unfold update_and_write_bbox_data bboxLoop
  rw [h1, h2, List.foldl_cons, List.foldl_nil]
  unfold processIndex
  have h3 : ([0, 1] : List Nat).getD 1 0 = 1 := by decide
  rw [h3, harg, if_neg (by decide)]
  decide

/-! ### C4: frame image encoding round trip -/

/-- Per-pixel channel packing of `write_image`: the four `np.uint8`
channels `(seg & 0x000000FF) >> 0`, `(seg & 0x0000FF00) >> 8`,
`(seg & 0x00FF0000) >> 16`, and the constant alpha 255.  The `% 256`
models the store into the `uint8` array. -/
def write_image_pixel (id : Nat) : Nat × Nat × Nat × Nat :=
  (((id &&& 0x000000FF) >>> 0) % 256, ((id &&& 0x0000FF00) >>> 8) % 256,
    ((id &&& 0x00FF0000) >>> 16) % 256, 255)

/-- The decoding `id = channel0 + channel1*256 + channel2*65536` stated by
the data format. -/
def decode_pixel (c : Nat × Nat × Nat × Nat) : Nat :=
  c.1 + c.2.1 * 256 + c.2.2.1 * 65536

theorem and_shl_shiftRight (x k : Nat) :
    (x &&& (255 <<< k)) >>> k = (x >>> k) &&& 255 := by
  apply Nat.eq_of_testBit_eq
  intro j
  rw [Nat.testBit_shiftRight, Nat.testBit_and, Nat.testBit_and, Nat.testBit_shiftRight,
    Nat.testBit_shiftLeft]
  have hle : k ≤ k + j := Nat.le_add_right k j
  have hsub : k + j - k = j := by omega
  rw [hsub]
  simp [hle]

theorem and_255_eq_mod (x : Nat) : x &&& 255 = x % 256 := by
  have h : (255 : Nat) = 2 ^ 8 - 1 := by norm_num
  rw [h, Nat.and_pow_two_sub_one_eq_mod]

/-- C4: for every `id < 2^24`, packing the three low-order bytes into the
image channels as `write_image` does and decoding them back as
`channel0 + channel1*256 + channel2*65536` returns `id` unchanged. -/
theorem C4_write_image_roundtrip (id : Nat) (h : id < 2 ^ 24) :
    decode_pixel (write_image_pixel id) = id := by
  unfold decode_pixel write_image_pixel
  simp only
  have e0 : (id &&& 0x000000FF) >>> 0 = id % 256 := by
    rw [Nat.shiftRight_zero]
    exact and_255_eq_mod id
  have e1 : (id &&& 0x0000FF00) >>> 8 = id / 256 % 256 := by
    have hm : (0x0000FF00 : Nat) = 255 <<< 8 := by decide
    rw [hm, and_shl_shiftRight, and_255_eq_mod, Nat.shiftRight_eq_div_pow]
  have e2 : (id &&& 0x00FF0000) >>> 16 = id / 65536 % 256 := by
    have hm : (0x00FF0000 : Nat) = 255 <<< 16 := by decide
    rw [hm, and_shl_shiftRight, and_255_eq_mod, Nat.shiftRight_eq_div_pow]
  rw [e0, e1, e2]
  omega

/-- Witness for C4 at `id = 12345678`. -/
theorem C4_witness :
    12345678 < 2 ^ 24 ∧ decode_pixel (write_image_pixel 12345678) = 12345678 :=
  ⟨by norm_num, C4_write_image_roundtrip 12345678 (by norm_num)⟩

/-! ### C7: feature min/max excluding NaN -/

/-- The non-NaN entries of a feature column, in row order.  A feature
value is modelled as `Option ℚ`, `none` standing for NaN. -/
def nonNanValues (l : List (Option ℚ)) : List ℚ := l.filterMap id

/-- `np.nanmin`: minimum over the non-NaN entries; NaN (here `none`) on an
all-NaN column. -/
def nanmin (l : List (Option ℚ)) : Option ℚ :=
  match nonNanValues l with
  | [] => none
  | h :: t => some (t.foldl min h)

/-- `np.nanmax`: maximum over the non-NaN entries. -/
def nanmax (l : List (Option ℚ)) : Option ℚ :=
  match nonNanValues l with
  | [] => none
  | h :: t => some (t.foldl max h)

/-- The `feature_<i>.json` payload written by `write_feature_data`:
`{"data": f.tolist(), "min": np.nanmin(f), "max": np.nanmax(f)}`. -/
structure FeatureJson where
  data : List (Option ℚ)
  min : Option ℚ
  max : Option ℚ
deriving DecidableEq

/-- The per-feature body of the loop in `write_feature_data`. -/
def write_feature_json (f : List (Option ℚ)) : FeatureJson :=
  { data := f, min := nanmin f, max := nanmax f }

/-- C7: for a feature array with at least one non-NaN entry,
`write_feature_data` emits `min`/`max` equal to the least/greatest
non-NaN entry, while `data` carries every entry — NaN included — in the
original row order. -/
theorem C7_feature_min_max_ignore_nan (f : List (Option ℚ))
    (h : nonNanValues f ≠ []) :
    (write_feature_json f).data = f
    ∧ (∃ mn, (write_feature_json f).min = some mn ∧ mn ∈ nonNanValues f
        ∧ ∀ v ∈ nonNanValues f, mn ≤ v)
    ∧ (∃ mx, (write_feature_json f).max = some mx ∧ mx ∈ nonNanValues f
        ∧ ∀ v ∈ nonNanValues f, v ≤ mx) := by
  cases hnn : nonNanValues f with
  | nil => exact absurd hnn h
  | cons a t =>
    refine ⟨rfl, ⟨t.foldl min a, ?_, ?_, ?_⟩, ⟨t.foldl max a, ?_, ?_, ?_⟩⟩
    · show nanmin f = _
      unfold nanmin
      rw [hnn]
    · exact foldl_min_mem t a
    · intro v hv
      exact foldl_min_le t a v hv
    · show nanmax f = _
      unfold nanmax
      rw [hnn]
    · exact foldl_max_mem t a
    · intro v hv
      exact foldl_le_max t a v hv

/-- Witness for C7 on `[3, NaN, 1]`: min 1, max 3, data kept verbatim. -/
theorem C7_witness :
    nonNanValues [some 3, none, some 1] ≠ []
    ∧ ((write_feature_json [some 3, none, some 1]).data = [some 3, none, some 1]
    ∧ (∃ mn, (write_feature_json [some 3, none, some 1]).min = some mn
        ∧ mn ∈ nonNanValues [some 3, none, some 1]
        ∧ ∀ v ∈ nonNanValues [some 3, none, some 1], mn ≤ v)
    ∧ (∃ mx, (write_feature_json [some 3, none, some 1]).max = some mx
        ∧ mx ∈ nonNanValues [some 3, none, some 1]
        ∧ ∀ v ∈ nonNanValues [some 3, none, some 1], v ≤ mx)) :=
  ⟨by decide, C7_feature_min_max_ignore_nan [some 3, none, some 1] (by decide)⟩

/-! ### C8: centroid interleaving, scaling and truncation -/

/-- `astype(int)` on a float: truncation toward zero. -/
def truncQ (q : ℚ) : ℤ := if 0 ≤ q then ⌊q⌋ else ⌈q⌉

/-- `np.ravel(np.dstack([centroids_x, centroids_y]))`: the interleaving
`x0, y0, x1, y1, ...` (the arrays have equal length in every use). -/
def interleave : List ℚ → List ℚ → List ℚ
  | x :: xs, y :: ys => x :: y :: interleave xs ys
  | _, _ => []

/-- The centroid payload of `write_feature_data`: interleave, multiply by
the writer's `scale`, truncate each entry to an integer. -/
def centroids_data (cx cy : List ℚ) (scale : ℚ) : List ℤ :=
  (interleave cx cy).map (fun c => truncQ (c * scale))

theorem interleave_length (cx : List ℚ) :
    ∀ cy : List ℚ, cx.length = cy.length →
      (interleave cx cy).length = 2 * cx.length := by
  induction cx with
  | nil => intro cy h; cases cy with
    | nil => rfl
    | cons b ys => simp at h
  | cons a xs ih =>
    intro cy h
    cases cy with
    | nil => simp at h
    | cons b ys =>
      unfold interleave
      simp only [List.length_cons]
      rw [ih ys (by simpa using h)]
      omega

theorem interleave_getD (cx : List ℚ) :
    ∀ (cy : List ℚ) (i : Nat), cx.length = cy.length → i < cx.length →
      (interleave cx cy).getD (2 * i) 0 = cx.getD i 0
      ∧ (interleave cx cy).getD (2 * i + 1) 0 = cy.getD i 0 := by
  induction cx with
  | nil => intro cy i h hi; simp at hi
  | cons a xs ih =>
    intro cy i h hi
    cases cy with
    | nil => simp at h
    | cons b ys =>
      unfold interleave
      cases i with
      | zero => exact ⟨rfl, rfl⟩
      | succ m =>
        have h2 : 2 * (m + 1) = (2 * m + 1) + 1 := by omega
        rw [h2]
        simp only [List.getD_cons_succ]
        exact ih ys m (by simpa using h) (by simpa using hi)

/-- C8: for centroid arrays of equal length `n` and scale factor `s`, the
`centroids.json` data has length `2n` and satisfies
`data[2i] = trunc(x_i * s)`, `data[2i+1] = trunc(y_i * s)` (truncation
toward zero). -/
theorem C8_centroid_encoding (cx cy : List ℚ) (s : ℚ) (n : Nat)
    (hx : cx.length = n) (hy : cy.length = n) :
    (centroids_data cx cy s).length = 2 * n
    ∧ ∀ i < n, (centroids_data cx cy s).getD (2 * i) 0 = truncQ (cx.getD i 0 * s)
        ∧ (centroids_data cx cy s).getD (2 * i + 1) 0 = truncQ (cy.getD i 0 * s) := by
  have hlen : cx.length = cy.length := by omega
  have hinter := interleave_length cx cy hlen
  constructor
  · unfold centroids_data
    rw [List.length_map, hinter, hx]
  · intro i hi
    have hi' : i < cx.length := by omega
    have hgd := interleave_getD cx cy i hlen hi'
    unfold centroids_data
    constructor
    · rw [getD_map_of_lt (fun c => truncQ (c * s)) _ _ 0 0 (by omega), hgd.1]
    · rw [getD_map_of_lt (fun c => truncQ (c * s)) _ _ 0 0 (by omega), hgd.2]

/-- Witness for C8 on the spec's example: centroid `(100, 50)` at scale
`1/2` encodes to `(50, 25)`. -/
theorem C8_witness :
    ([(100 : ℚ)].length = 1 ∧ [(50 : ℚ)].length = 1)
    ∧ ((centroids_data [(100 : ℚ)] [(50 : ℚ)] (1 / 2)).length = 2 * 1
    ∧ ∀ i < 1, (centroids_data [(100 : ℚ)] [(50 : ℚ)] (1 / 2)).getD (2 * i) 0
          = truncQ ([(100 : ℚ)].getD i 0 * (1 / 2))
        ∧ (centroids_data [(100 : ℚ)] [(50 : ℚ)] (1 / 2)).getD (2 * i + 1) 0
          = truncQ ([(50 : ℚ)].getD i 0 * (1 / 2)))
    ∧ centroids_data [(100 : ℚ)] [(50 : ℚ)] (1 / 2) = [50, 25] :=
  ⟨⟨rfl, rfl⟩, C8_centroid_encoding [(100 : ℚ)] [(50 : ℚ)] (1 / 2) 1 rfl rfl, by
    unfold centroids_data
    norm_num [interleave, truncQ]⟩

/-! ### C6: global IDs are dense and unique -/

/-- `make_dataset` (convert_nucmorph_data.py): after
`reset_index(drop=True)` and
`reduced_dataset[INITIAL_INDEX_COLUMN] = reduced_dataset.index.values`,
the `i`-th object row carries initial index `i`. -/
def assign_initial_indices (labels : List Nat) : List ObjRecord :=
  labels.enum.map (fun p => ObjRecord.mk p.2 p.1)

/-- The global ID of each record: its initial index plus the reserved
offset, exactly the value `remap_segmented_image` stores in the LUT. -/
def global_ids (recs : List ObjRecord) : List Nat :=
  recs.map (fun r => r.initialIndex + RESERVED_INDICES)

/-- C6: for a dataset whose rows are enumerated `0..N-1` by
`reset_index`, the assigned global IDs are exactly `1..N` in order —
dense, no gaps, no duplicates — and every nonzero pixel of any frame
image remapped against a subset of those records carries one of these
IDs. -/
theorem C6_global_ids_dense_and_unique (labels : List Nat) (frame : List ObjRecord)
    (seg2d : List (List Nat))
    (hframe : ∀ r ∈ frame, r ∈ assign_initial_indices labels) :
    global_ids (assign_initial_indices labels) = List.range' 1 labels.length
    ∧ (global_ids (assign_initial_indices labels)).Nodup
    ∧ ∀ i j, pixelD (remap_segmented_image seg2d frame).1 i j = 0
        ∨ pixelD (remap_segmented_image seg2d frame).1 i j
            ∈ global_ids (assign_initial_indices labels) := by
  have hids : global_ids (assign_initial_indices labels) = List.range' 1 labels.length := by
    unfold global_ids assign_initial_indices
    rw [List.map_map]
    have h1 : ((fun r => r.initialIndex + RESERVED_INDICES)
        ∘ (fun p : Nat × Nat => ObjRecord.mk p.2 p.1))
        = (fun p : Nat × Nat => p.1 + RESERVED_INDICES) := rfl
    rw [h1]
    have h2 : (fun p : Nat × Nat => p.1 + RESERVED_INDICES)
        = (fun n => n + RESERVED_INDICES) ∘ Prod.fst := rfl
    rw [h2, ← List.map_map, List.enum_map_fst, List.range'_eq_map_range]
    apply List.map_congr_left
    intro a ha
    unfold RESERVED_INDICES
    omega
  refine ⟨hids, ?_, ?_⟩
  · rw [hids]
    exact List.nodup_range' 1 labels.length
  · intro i j
    by_cases hi : i < (remap_segmented_image seg2d frame).1.length
    · by_cases hj : j < ((remap_segmented_image seg2d frame).1.getD i []).length
      · have hi' : i < seg2d.length := by rw [← remap_length seg2d frame]; exact hi
        have hj' : j < (seg2d.getD i []).length := by
          rw [← remap_row_length seg2d frame]; exact hj
        rw [remap_pixel seg2d frame i j hi' hj', remap_lut_getD]
        by_cases h0 : lutSpec frame (pixelD seg2d i j) = 0
        · exact Or.inl h0
        · obtain ⟨r, hrmem, -, hrid⟩ := lutSpec_mem h0
          right
          rw [hrid]
          exact List.mem_map_of_mem _ (hframe r hrmem)
      · exact Or.inl (pixelD_oob (Or.inr (Nat.le_of_not_lt hj)))
    · exact Or.inl (pixelD_oob (Or.inl (Nat.le_of_not_lt hi)))

/-- Witness for C6 on a 3-row dataset with one frame holding its first
two records. -/
theorem C6_witness :
    (∀ r ∈ [ObjRecord.mk 5 0, ObjRecord.mk 2 1], r ∈ assign_initial_indices [5, 2, 9])
    ∧ (global_ids (assign_initial_indices [5, 2, 9]) = List.range' 1 [5, 2, 9].length
    ∧ (global_ids (assign_initial_indices [5, 2, 9])).Nodup
    ∧ ∀ i j, pixelD (remap_segmented_image [[5, 2, 0]]
          [ObjRecord.mk 5 0, ObjRecord.mk 2 1]).1 i j = 0
        ∨ pixelD (remap_segmented_image [[5, 2, 0]]
            [ObjRecord.mk 5 0, ObjRecord.mk 2 1]).1 i j
            ∈ global_ids (assign_initial_indices [5, 2, 9])) :=
  ⟨by decide, C6_global_ids_dense_and_unique [5, 2, 9]
    [ObjRecord.mk 5 0, ObjRecord.mk 2 1] [[5, 2, 0]] (by decide)⟩

/-! ### C10: duplicate local labels overwrite silently, last record wins -/

theorem get_init_ne {frame : List ObjRecord}
    (hnodup : (frame.map (fun r => r.initialIndex)).Nodup)
    {a b : Nat} (ha : a < frame.length) (hb : b < frame.length) (hab : a ≠ b) :
    (frame.get ⟨a, ha⟩).initialIndex ≠ (frame.get ⟨b, hb⟩).initialIndex := by
  intro heq
  have hsame : frame.get ⟨a, ha⟩ = frame.get ⟨b, hb⟩ :=
    List.inj_on_of_nodup_map hnodup (List.get_mem frame a ha)
      (List.get_mem frame b hb) heq
  have hfnodup : frame.Nodup := List.Nodup.of_map _ hnodup
  have := List.nodup_iff_injective_get.mp hfnodup hsame
  exact hab (by simpa using congrArg Fin.val this)

theorem mem_inj_of_nodup_init {frame : List ObjRecord}
    (hnodup : (frame.map (fun r => r.initialIndex)).Nodup)
    {x y : ObjRecord} (hx : x ∈ frame) (hy : y ∈ frame)
    (hxy : x.initialIndex = y.initialIndex) : x = y :=
  List.inj_on_of_nodup_map hnodup hx hy hxy

/-- C10: if a frame table has two records with the same local label
(while initial indices stay pairwise distinct, as `reset_index`
guarantees), `remap_segmented_image` raises no error: the output image is
fully defined with the input's shape, every pixel bearing the duplicated
label maps to the LAST such record's global ID, and the earlier record's
global ID appears nowhere in the remapped image. -/
theorem C10_duplicate_local_labels_last_record_wins
    (seg2d : List (List Nat)) (frame : List ObjRecord) (i j : Nat)
    (hnodup : (frame.map (fun r => r.initialIndex)).Nodup)
    (hi : i < frame.length) (hj : j < frame.length) (hij : i < j)
    (hlab : (frame.get ⟨i, hi⟩).local_label = (frame.get ⟨j, hj⟩).local_label) :
    (remap_segmented_image seg2d frame).1.length = seg2d.length
    ∧ (∀ a, ((remap_segmented_image seg2d frame).1.getD a []).length
        = (seg2d.getD a []).length)
    ∧ (∃ rlast ∈ frame,
        (frame.filter
          (fun x => x.local_label == (frame.get ⟨i, hi⟩).local_label)).getLast?
          = some rlast
        ∧ rlast.initialIndex ≠ (frame.get ⟨i, hi⟩).initialIndex
        ∧ ∀ a b, a < seg2d.length → b < (seg2d.getD a []).length →
            pixelD seg2d a b = (frame.get ⟨i, hi⟩).local_label →
            pixelD (remap_segmented_image seg2d frame).1 a b
              = rlast.initialIndex + RESERVED_INDICES)
    ∧ (∀ a b, pixelD (remap_segmented_image seg2d frame).1 a b
        ≠ (frame.get ⟨i, hi⟩).initialIndex + RESERVED_INDICES) := by
  have hfnodup : frame.Nodup := List.Nodup.of_map _ hnodup
  -- name the two records and the duplicated label
  set ri := frame.get ⟨i, hi⟩ with hri
  set rj := frame.get ⟨j, hj⟩ with hrj
  -- decompose the frame around position j
  have hdecomp : frame = frame.take j ++ rj :: frame.drop (j + 1) := by
    conv_lhs => rw [← List.take_append_drop j frame]
    congr 1
    rw [List.drop_eq_getElem_cons hj]
    congr 1
  have hrimem : ri ∈ frame := List.get_mem frame i hi
  have hritake : ri ∈ frame.take j := by
    have h1 : (frame.take j).get ⟨i, by rw [List.length_take]; omega⟩
        = frame.get ⟨i, hi⟩ := by
      rw [List.get_eq_getElem, List.get_eq_getElem, List.getElem_take]
    rw [hri, ← h1]
    exact List.get_mem _ i _
  have hdisj : List.Disjoint (frame.take j) (rj :: frame.drop (j + 1)) := by
    apply List.disjoint_of_nodup_append
    rw [← hdecomp]
    exact hfnodup
  -- the filtered list around position j
  have hrjlab : (rj.local_label == ri.local_label) = true := by
    simp only [beq_iff_eq]
    exact hlab.symm
  have hfiltersplit :
      frame.filter (fun x => x.local_label == ri.local_label)
        = (frame.take j).filter (fun x => x.local_label == ri.local_label)
          ++ rj :: (frame.drop (j + 1)).filter (fun x => x.local_label == ri.local_label) := by
    conv_lhs => rw [hdecomp]
    rw [List.filter_append, List.filter_cons, hrjlab]
    simp
  -- the last matching record
  have hlast : ∃ rlast, (frame.filter
      (fun x => x.local_label == ri.local_label)).getLast? = some rlast
      ∧ rlast ∈ rj :: (frame.drop (j + 1)).filter (fun x => x.local_label == ri.local_label) := by
    cases hfd : ((frame.drop (j + 1)).filter
        (fun x => x.local_label == ri.local_label)).getLast? with
    | none =>
      refine ⟨rj, ?_, List.mem_cons_self rj _⟩
      rw [hfiltersplit, List.getLast?_append, getLast?_cons, hfd, Option.or_some]
    | some z =>
      refine ⟨z, ?_, List.mem_cons_of_mem rj (List.mem_of_getLast?_eq_some hfd)⟩
      rw [hfiltersplit, List.getLast?_append, getLast?_cons, hfd, Option.or_some]
  obtain ⟨rlast, hgetlast, hlastmem⟩ := hlast
  -- the last matching record differs from the earlier record in its id
  have hlastfr : rlast ∈ frame := by
    rcases List.mem_cons.mp hlastmem with h | h
    · rw [h, hrj]; exact List.get_mem frame j hj
    · exact List.mem_of_mem_drop (List.mem_filter.mp h).1
  have hlastlab : rlast.local_label = ri.local_label := by
    have hmemfil : rlast ∈ frame.filter (fun x => x.local_label == ri.local_label) :=
      List.mem_of_getLast?_eq_some hgetlast
    simpa using (List.mem_filter.mp hmemfil).2
  have hlastne : rlast.initialIndex ≠ ri.initialIndex := by
    intro heq
    have hlri : rlast = ri := mem_inj_of_nodup_init hnodup hlastfr hrimem heq
    rcases List.mem_cons.mp hlastmem with h | h
    · -- rlast = rj would force ri = rj, impossible: distinct initial indices
      have : rj.initialIndex ≠ ri.initialIndex :=
        get_init_ne hnodup hj hi (by omega)
      rw [← h, heq] at this
      exact this rfl
    · -- rlast in the tail after j, but ri sits in the prefix before j
      have hridrop : ri ∈ frame.drop (j + 1) := by
        rw [← hlri]
        exact (List.mem_filter.mp h).1
      exact hdisj hritake (List.mem_cons_of_mem rj hridrop)
  -- the LUT sends the duplicated label to the last record's global id
  have hlutL : lutSpec frame ri.local_label = rlast.initialIndex + RESERVED_INDICES := by
    unfold lutSpec
    rw [hgetlast]
  refine ⟨remap_length seg2d frame, remap_row_length seg2d frame,
    ⟨rlast, hlastfr, hgetlast, hlastne, ?_⟩, ?_⟩
  · intro a b ha hb hpx
    rw [remap_pixel seg2d frame a b ha hb, remap_lut_getD, hpx, hlutL]
  · intro a b
    by_cases ha : a < (remap_segmented_image seg2d frame).1.length
    · by_cases hb : b < ((remap_segmented_image seg2d frame).1.getD a []).length
      · have ha' : a < seg2d.length := by rw [← remap_length seg2d frame]; exact ha
        have hb' : b < (seg2d.getD a []).length := by
          rw [← remap_row_length seg2d frame]; exact hb
        rw [remap_pixel seg2d frame a b ha' hb', remap_lut_getD]
        intro heq
        have hne0 : lutSpec frame (pixelD seg2d a b) ≠ 0 := by
          rw [heq]; unfold RESERVED_INDICES; omega
        obtain ⟨r, hrmem, hrlab, hrid⟩ := lutSpec_mem hne0
        have hrinit : r.initialIndex = ri.initialIndex := by
          rw [hrid] at heq
          omega
        have hrri : r = ri := mem_inj_of_nodup_init hnodup hrmem hrimem hrinit
        -- then the pixel's label is the duplicated label, whose LUT entry
        -- belongs to the last record, not to the earlier one
        have hvL : pixelD seg2d a b = ri.local_label := by rw [← hrlab, hrri]
        rw [hvL, hlutL] at heq
        exact hlastne (by omega)
      · rw [pixelD_oob (Or.inr (Nat.le_of_not_lt hb))]
        unfold RESERVED_INDICES
        omega
    · rw [pixelD_oob (Or.inl (Nat.le_of_not_lt ha))]
      unfold RESERVED_INDICES
      omega

/-- Witness for C10: records `[(label 1 ↦ row 0), (label 1 ↦ row 1)]`
share local label 1; image `[[1]]`. -/
theorem C10_witness :
    (([ObjRecord.mk 1 0, ObjRecord.mk 1 1].map (fun r => r.initialIndex)).Nodup
    ∧ ([ObjRecord.mk 1 0, ObjRecord.mk 1 1].get ⟨0, by decide⟩).local_label
        = ([ObjRecord.mk 1 0, ObjRecord.mk 1 1].get ⟨1, by decide⟩).local_label)
    ∧ ((remap_segmented_image [[1]] [ObjRecord.mk 1 0, ObjRecord.mk 1 1]).1.length
        = [[1]].length
    ∧ (∀ a, ((remap_segmented_image [[1]] [ObjRecord.mk 1 0, ObjRecord.mk 1 1]).1.getD a []).length
        = ([[1]].getD a []).length)
    ∧ (∃ rlast ∈ [ObjRecord.mk 1 0, ObjRecord.mk 1 1],
        ([ObjRecord.mk 1 0, ObjRecord.mk 1 1].filter
          (fun x => x.local_label
            == ([ObjRecord.mk 1 0, ObjRecord.mk 1 1].get ⟨0, by decide⟩).local_label)).getLast?
          = some rlast
        ∧ rlast.initialIndex
            ≠ ([ObjRecord.mk 1 0, ObjRecord.mk 1 1].get ⟨0, by decide⟩).initialIndex
        ∧ ∀ a b, a < [[1]].length → b < ([[1]].getD a []).length →
            pixelD [[1]] a b
              = ([ObjRecord.mk 1 0, ObjRecord.mk 1 1].get ⟨0, by decide⟩).local_label →
            pixelD (remap_segmented_image [[1]] [ObjRecord.mk 1 0, ObjRecord.mk 1 1]).1 a b
              = rlast.initialIndex + RESERVED_INDICES)
    ∧ (∀ a b, pixelD (remap_segmented_image [[1]] [ObjRecord.mk 1 0, ObjRecord.mk 1 1]).1 a b
        ≠ ([ObjRecord.mk 1 0, ObjRecord.mk 1 1].get ⟨0, by decide⟩).initialIndex
            + RESERVED_INDICES)) :=
  ⟨⟨by decide, by decide⟩,
    C10_duplicate_local_labels_last_record_wins [[1]]
      [ObjRecord.mk 1 0, ObjRecord.mk 1 1] 0 1 (by decide) (by decide) (by decide)
      (by decide) (by decide)⟩

/-! ### C9: manifest contents versus files written by the pipeline -/

/-- A file in the dataset output directory, by its pipeline-generated
name.  The string templates `frame_<i>.png` / `feature_<i>.json` and the
five fixed JSON names are injective, so the structured constructors
mirror the file names exactly. -/
inductive DataFile
  | frame (i : Nat)
  | feature (i : Nat)
  | outliers
  | tracks
  | times
  | centroids
  | bounds
deriving DecidableEq, Repr

/-- The `frames` list of `write_manifest`:
`["frame_" + str(i) + ".png" for i in range(num_frames)]`. -/
def manifest_frames (num_frames : Nat) : List DataFile :=
  (List.range num_frames).map DataFile.frame

/-- Python dict assignment `m[k] = v`: overwrite in place if the key
exists, else append (dicts preserve insertion order). -/
def dictInsert (m : List (String × DataFile)) (k : String) (v : DataFile) :
    List (String × DataFile) :=
  if m.any (fun p => p.1 == k) then
    m.map (fun p => if p.1 == k then (k, v) else p)
  else m ++ [(k, v)]

/-- The `featmap` loop of `write_manifest`:
`featmap[feature_names[i]] = "feature_" + str(i) + ".json"`, in order. -/
def manifest_featmap_loop (i : Nat) (names : List String)
    (m : List (String × DataFile)) : List (String × DataFile) :=
  match names with
  | [] => m
  | nm :: rest => manifest_featmap_loop (i + 1) rest (dictInsert m nm (DataFile.feature i))

def manifest_featmap (names : List String) : List (String × DataFile) :=
  manifest_featmap_loop 0 names []

/-- All files the manifest written by `write_manifest` references. -/
def manifest_refs (num_frames : Nat) (names : List String) : List DataFile :=
  manifest_frames num_frames ++ (manifest_featmap names).map Prod.snd
    ++ [DataFile.outliers, DataFile.tracks, DataFile.times, DataFile.centroids,
        DataFile.bounds]

/-- Files written by `write_feature_data` (`make_features`), in order. -/
def make_features_files (numFeatures : Nat) : List DataFile :=
  [DataFile.outliers, DataFile.tracks, DataFile.times, DataFile.centroids]
    ++ (List.range numFeatures).map DataFile.feature

/-- Files written by `make_frames` (convert_nucmorph_data.py): for each
frame group, `update_and_write_bbox_data` rewrites `bounds.json` and
`write_image` writes `frame_<frame_number>.png`, where `frame_number` is
the group's `TIMES_COLUMN` value — not a 0-based counter. -/
def make_frames_files (frameTimes : List Nat) : List DataFile :=
  frameTimes.flatMap (fun t => [DataFile.bounds, DataFile.frame t])

/-- All files `make_dataset` has written when `write_manifest` runs:
`make_features` first, then `make_frames`. -/
def make_dataset_files (frameTimes : List Nat) (numFeatures : Nat) : List DataFile :=
  make_features_files numFeatures ++ make_frames_files frameTimes

/-- The expected featmap for distinct feature names: the `i`-th name maps
to `feature_<i>.json`. -/
def enumFromNames (i : Nat) (names : List String) : List (String × DataFile) :=
  match names with
  | [] => []
  | nm :: rest => (nm, DataFile.feature i) :: enumFromNames (i + 1) rest

theorem manifest_featmap_loop_eq (names : List String) :
    ∀ (i : Nat) (m : List (String × DataFile)), names.Nodup →
      (∀ p ∈ m, p.1 ∉ names) →
      manifest_featmap_loop i names m = m ++ enumFromNames i names := by
  induction names with
  | nil => intro i m _ _; simp [manifest_featmap_loop, enumFromNames]
  | cons nm rest ih =>
    intro i m hnodup hkeys
    unfold manifest_featmap_loop enumFromNames
    have hany : (m.any (fun p => p.1 == nm)) = false := by
      rw [List.any_eq_false]
      intro p hp
      simp only [beq_iff_eq]
      exact fun h => hkeys p hp (h ▸ List.mem_cons_self nm rest)
    have hins : dictInsert m nm (DataFile.feature i) = m ++ [(nm, DataFile.feature i)] := by
      unfold dictInsert
      rw [hany]
      simp
    rw [hins, ih (i + 1) (m ++ [(nm, DataFile.feature i)])
        (List.nodup_cons.mp hnodup).2 ?_, List.append_assoc]
    · simp
    · intro p hp
      rcases List.mem_append.mp hp with h | h
      · exact fun hc => hkeys p h (List.mem_cons_of_mem nm hc)
      · rw [List.mem_singleton] at h
        rw [h]
        exact (List.nodup_cons.mp hnodup).1
  
theorem enumFromNames_length (names : List String) :
    ∀ i, (enumFromNames i names).length = names.length := by
  induction names with
  | nil => intro i; rfl
  | cons nm rest ih =>
    intro i
    unfold enumFromNames
    simp [ih (i + 1)]

theorem enumFromNames_getD (names : List String) :
    ∀ i j, j < names.length →
      (enumFromNames i names).getD j ("", DataFile.bounds)
        = (names.getD j "", DataFile.feature (i + j)) := by
  induction names with
  | nil => intro i j hj; simp at hj
  | cons nm rest ih =>
    intro i j hj
    unfold enumFromNames
    cases j with
    | zero => simp [List.getD]
    | succ m =>
      rw [List.getD_cons_succ, List.getD_cons_succ, ih (i + 1) m (by simpa using hj)]
      have : i + 1 + m = i + (m + 1) := by omega
      rw [this]

theorem enumFromNames_snd_mem (names : List String) :
    ∀ i f, f ∈ (enumFromNames i names).map Prod.snd →
      ∃ j, j < names.length ∧ f = DataFile.feature (i + j) := by
  induction names with
  | nil => intro i f hf; simp [enumFromNames] at hf
  | cons nm rest ih =>
    intro i f hf
    unfold enumFromNames at hf
    rw [List.map_cons, List.mem_cons] at hf
    rcases hf with h | h
    · exact ⟨0, by simp, by simpa using h⟩
    · obtain ⟨j, hj, hf⟩ := ih (i + 1) f h
      exact ⟨j + 1, by simpa using hj, by rw [hf]; congr 1; omega⟩

theorem getD_range (n i : Nat) (h : i < n) : (List.range n).getD i 0 = i := by
  rw [List.getD_eq_getElem?_getD, List.getElem?_eq_getElem (by simpa using h)]
  simp

/-- C9 (counterexample to the claim as stated): with 2 frame groups whose
time values are 1 and 2 (`nframes = 2`) and features `["a", "b"]`, the
manifest references `frame_0.png`, but `make_frames` wrote
`frame_1.png` and `frame_2.png` — the referenced file does not exist. -/
theorem C9_counterexample_missing_frame_file :
    DataFile.frame 0 ∈ manifest_refs 2 ["a", "b"]
    ∧ DataFile.frame 0 ∉ make_dataset_files [1, 2] 2 := by
  constructor
  · decide
  · decide

/-- C9 (amended): for a conversion with `n ≥ 1` frame groups whose time
values are exactly `0..n-1` (the order `groupby` yields) and `k` distinct
feature names, the manifest lists exactly the `n` frame files
`frame_0.png .. frame_(n-1).png`, exactly `k` feature entries mapping the
`i`-th name to `feature_<i>.json`, and every file the manifest references
was already written by `make_features`/`make_frames` before
`write_manifest` runs. -/
theorem C9_manifest_complete_when_times_contiguous
    (n k : Nat) (names : List String) (frameTimes : List Nat)
    (hk : names.length = k) (hnodup : names.Nodup)
    (htimes : frameTimes = List.range n) (hn : 0 < n) :
    (manifest_frames n).length = n
    ∧ (∀ i, i < n → (manifest_frames n).getD i DataFile.bounds = DataFile.frame i)
    ∧ (manifest_featmap names).length = k
    ∧ (∀ i, i < k → (manifest_featmap names).getD i ("", DataFile.bounds)
        = (names.getD i "", DataFile.feature i))
    ∧ (∀ f ∈ manifest_refs n names, f ∈ make_dataset_files frameTimes k) := by
  have hfm : manifest_featmap names = enumFromNames 0 names := by
    unfold manifest_featmap
    rw [manifest_featmap_loop_eq names 0 [] hnodup (by simp)]
    simp
  refine ⟨by simp [manifest_frames], ?_, ?_, ?_, ?_⟩
  · intro i hi
    unfold manifest_frames
    rw [getD_map_of_lt DataFile.frame (List.range n) i 0 DataFile.bounds
      (by simpa using hi), getD_range n i hi]
  · rw [hfm, enumFromNames_length, hk]
  · intro i hi
    rw [hfm, enumFromNames_getD names 0 i (by omega)]
    simp
  · intro f hf
    unfold manifest_refs at hf
    unfold make_dataset_files make_features_files make_frames_files
    rw [List.mem_append, List.mem_append] at hf
    rcases hf with (hf | hf) | hf
    · -- a frame file: its index is one of the written time values
      unfold manifest_frames at hf
      obtain ⟨i, hi, hfi⟩ := List.mem_map.mp hf
      rw [List.mem_append, htimes]
      right
      rw [List.mem_flatMap]
      exact ⟨i, hi, by rw [← hfi]; simp⟩
    · -- a feature file
      rw [hfm] at hf
      obtain ⟨j, hj, hfj⟩ := enumFromNames_snd_mem names 0 f hf
      rw [List.mem_append]
      left
      rw [hfj, List.mem_append]
      right
      exact List.mem_map.mpr ⟨j, List.mem_range.mpr (by omega), by simp⟩
    · -- the five fixed files
      rw [List.mem_append]
      simp only [List.mem_cons] at hf
      rcases hf with h | h | h | h | h | h
      · left; rw [h]; simp
      · left; rw [h]; simp
      · left; rw [h]; simp
      · left; rw [h]; simp
      · -- bounds.json is written while processing the first frame
        right
        rw [h, htimes, List.mem_flatMap]
        exact ⟨0, by rw [List.mem_range]; omega, by simp⟩
      · simp at h

/-- Witness for the amended C9 at the spec's example size: 3 frames with
times `[0, 1, 2]` and 2 features. -/
theorem C9_witness :
    ((["a", "b"] : List String).length = 2 ∧ (["a", "b"] : List String).Nodup
      ∧ [0, 1, 2] = List.range 3 ∧ 0 < 3)
    ∧ ((manifest_frames 3).length = 3
    ∧ (∀ i, i < 3 → (manifest_frames 3).getD i DataFile.bounds = DataFile.frame i)
    ∧ (manifest_featmap ["a", "b"]).length = 2
    ∧ (∀ i, i < 2 → (manifest_featmap ["a", "b"]).getD i ("", DataFile.bounds)
        = ((["a", "b"] : List String).getD i "", DataFile.feature i))
    ∧ (∀ f ∈ manifest_refs 3 ["a", "b"], f ∈ make_dataset_files [0, 1, 2] 2)) :=
  ⟨⟨rfl, by decide, by decide, by decide⟩,
    C9_manifest_complete_when_times_contiguous 3 2 ["a", "b"] [0, 1, 2]
      rfl (by decide) (by decide) (by decide)⟩
